import Mathlib

/-!
Shallow embedding of the asciidoc-links graph extractor
(src/src/utils.ts, src/src/parsing.ts, src/src/types.ts,
src/static/graphs/default/graph.js).

Strings are modelled as Lean `String` (a list of characters); all traversals
are implemented over `List Char` with structural recursion so that every
definition evaluates by kernel reduction.  JavaScript regular-expression
scanning (`pattern.exec` in a `while` loop with the `g` flag) is modelled by
a left-to-right scanner that, at each position, attempts the pattern exactly
as the regex engine would and otherwise advances one character; after a
match the scan resumes at the match end.  The `md5` hash from node's
`crypto` module is modelled as an abstract parameter `hash : String → String`
(a pure deterministic function, injectivity standing in for collision
freedom).  The VS Code file-system read is modelled as a parameter
`readFile : String → Option String` (`none` = I/O failure).
-/

namespace AsciidocLinks

/-- ASCII word character, as matched by the JavaScript regex class `\w`. -/
def isWordChar (c : Char) : Bool := c.isAlpha || c.isDigit || c = '_'

/-- Whitespace removed by JavaScript `String.prototype.trim` (ASCII part:
space, tab, line feed, carriage return, vertical tab, form feed). -/
def isJsSpace (c : Char) : Bool :=
  c = ' ' || c = '\t' || c = '\n' || c = '\r' || c = '\x0b' || c = '\x0c'

/-- Strip leading and trailing whitespace from a character list. -/
def trimL (l : List Char) : List Char :=
  ((l.dropWhile isJsSpace).reverse.dropWhile isJsSpace).reverse

/-- Model of JavaScript `s.trim()`. -/
def jsTrim (s : String) : String := ⟨trimL s.data⟩

/-- Test whether the first list is an initial segment of the second. -/
def startsWithL : List Char → List Char → Bool
  | [], _ => true
  | _ :: _, [] => false
  | p :: ps, c :: cs => p = c && startsWithL ps cs

/-- Test whether the first list is a final segment of the second. -/
def endsWithL (pat l : List Char) : Bool := startsWithL pat.reverse l.reverse

/-- Plain (boundary-free) substring occurrence test. -/
def substrOccurs (lit : List Char) : List Char → Bool
  | [] => startsWithL lit []
  | c :: cs => startsWithL lit (c :: cs) || substrOccurs lit cs

/-- The regex word-boundary condition `\b` immediately before a word
character: satisfied at the start of the string (`none`) or after a
non-word character. -/
def boundaryOk : Option Char → Bool
  | none => true
  | some c => !isWordChar c

/-- Scan for an occurrence of `lit` preceded by a word boundary; `prev` is
the character just before the current position (`none` at the start). -/
def boundedTestAux (lit : List Char) : Option Char → List Char → Bool
  | prev, [] => boundaryOk prev && startsWithL lit []
  | prev, c :: cs =>
    (boundaryOk prev && startsWithL lit (c :: cs)) || boundedTestAux lit (some c) cs

/-- Model of `new RegExp("\\b" + lit).test(s)` for a literal `lit` that
starts with a word character (as `tag=`, `tags=`, `lines=` do). -/
def reTestWordStart (lit : String) (s : String) : Bool :=
  boundedTestAux lit.data none s.data

/-- The character just before the end of `pre`, or `prev` when `pre` is
empty: the character the regex word-boundary looks back at when a match is
attempted right after `pre`. -/
def lastOr (prev : Option Char) : List Char → Option Char
  | [] => prev
  | c :: cs => lastOr (some c) cs

/-- Occurrence of `lit` in `s` preceded by a word boundary: some split
`s = pre ++ lit ++ post` where `pre` is empty or ends in a non-word
character. -/
def wordBoundedOccurs (lit s : List Char) : Prop :=
  ∃ pre post, s = pre ++ lit ++ post ∧ boundaryOk (lastOr none pre) = true

/-- src/src/utils.ts lines 77-88, `hasPartialIncludeAttributes`: an empty
attribute string is falsy and yields `false`; otherwise the three patterns
`\btag=`, `\btags=`, `\blines=` are tested. -/
def hasPartialIncludeAttributes (attributes : String) : Bool :=
  if attributes = "" then false
  else
    reTestWordStart "tag=" attributes ||
    reTestWordStart "tags=" attributes ||
    reTestWordStart "lines=" attributes

/-- src/src/utils.ts lines 93-95, `isExternalUrl`. -/
def isExternalUrl (url : String) : Bool :=
  startsWithL "http://".data url.data || startsWithL "https://".data url.data

/-- src/src/types.ts, `EdgeType = "link" | "include" | "include-partial"`.
The constructor `incl` models `"include"` and `inclPart` models the
tag/line-restricted `"include-partial"` variant. -/
inductive EdgeType
  | link
  | incl
  | inclPart
deriving DecidableEq

/-- src/src/types.ts, `AsciidocLink`. -/
structure AsciidocLink where
  target : String
  type : EdgeType
deriving DecidableEq

/-- Driver for a JavaScript global-regex `exec` loop over a pattern that
always consumes at least one character: at each position try the pattern;
on success emit the captures and resume at the match end, otherwise advance
one character.  `prev` tracks the character before the current position for
look-behind assertions; the fuel is the remaining string length. -/
def scanFrom {α : Type} (tryAt : Option Char → List Char → Option (α × Nat)) :
    Nat → Option Char → List Char → List α
  | 0, _, _ => []
  | _ + 1, _, [] => []
  | fuel + 1, prev, c :: cs =>
    match tryAt prev (c :: cs) with
    | some (a, k) =>
      a :: scanFrom tryAt fuel (((c :: cs).take k).getLast?) ((c :: cs).drop k)
    | none => scanFrom tryAt fuel (some c) cs

/-- Run a pattern scanner over a whole string. -/
def scanAll {α : Type} (tryAt : Option Char → List Char → Option (α × Nat)) (s : String) :
    List α :=
  scanFrom tryAt s.data.length none s.data

/-- Shared tail of the `xref:`, `link:` and `include::` patterns:
`([^\[]+\.adoc)\[([^\]]*)\]` applied to `rest` (the text after the keyword).
`pre` is the keyword length.  Returns the two captures and the total number
of characters consumed.  Because neither `[^\[]+` nor the literal `.adoc`
can contain `[`, the first capture necessarily extends to the next `[`. -/
def tryBracketTail (pre : Nat) (rest : List Char) : Option (String × String × Nat) :=
  let chunk := rest.takeWhile (fun c => c ≠ '[')
  if 6 ≤ chunk.length && endsWithL ".adoc".data chunk then
    match rest.dropWhile (fun c => c ≠ '[') with
    | '[' :: rest2 =>
      let attrs := rest2.takeWhile (fun c => c ≠ ']')
      match rest2.dropWhile (fun c => c ≠ ']') with
      | ']' :: _ => some (⟨chunk⟩, ⟨attrs⟩, pre + chunk.length + 1 + attrs.length + 1)
      | _ => none
    | _ => none
  else none

/-- The pattern `xref:([^\[]+\.adoc)\[[^\]]*\]` attempted at the current
position (src/src/utils.ts line 18). -/
def tryXref (_prev : Option Char) (l : List Char) : Option (String × Nat) :=
  if startsWithL "xref:".data l then
    (tryBracketTail 5 (l.drop 5)).map (fun r => (r.1, r.2.2))
  else none

/-- The pattern `(?<!\w)link:([^\[]+\.adoc)\[[^\]]*\]` attempted at the
current position (src/src/utils.ts line 28); the look-behind consults the
preceding character. -/
def tryLink (prev : Option Char) (l : List Char) : Option (String × Nat) :=
  if boundaryOk prev && startsWithL "link:".data l then
    (tryBracketTail 5 (l.drop 5)).map (fun r => (r.1, r.2.2))
  else none

/-- The pattern `include::([^\[]+\.adoc)\[([^\]]*)\]` attempted at the
current position (src/src/utils.ts line 25); both captures are kept. -/
def tryInclude (_prev : Option Char) (l : List Char) : Option ((String × String) × Nat) :=
  if startsWithL "include::".data l then
    (tryBracketTail 9 (l.drop 9)).map (fun r => ((r.1, r.2.1), r.2.2))
  else none

/-- The pattern `<<([^,>]+\.adoc)(?:,[^>]*)?>>?` attempted at the current
position (src/src/utils.ts line 21).  The capture `[^,>]+\.adoc` cannot
contain `,` or `>`, so it extends to the first `,` or `>`; the optional
label part requires a closing `>`, and `>>?` greedily takes a second `>`
when present. -/
def tryAnchor (_prev : Option Char) (l : List Char) : Option (String × Nat) :=
  if startsWithL "<<".data l then
    let rest := l.drop 2
    let chunk := rest.takeWhile (fun c => c ≠ ',' && c ≠ '>')
    if 6 ≤ chunk.length && endsWithL ".adoc".data chunk then
      match rest.dropWhile (fun c => c ≠ ',' && c ≠ '>') with
      | ',' :: rest2 =>
        let lbl := rest2.takeWhile (fun c => c ≠ '>')
        match rest2.dropWhile (fun c => c ≠ '>') with
        | '>' :: '>' :: _ => some (⟨chunk⟩, 2 + chunk.length + 1 + lbl.length + 2)
        | '>' :: _ => some (⟨chunk⟩, 2 + chunk.length + 1 + lbl.length + 1)
        | _ => none
      | '>' :: '>' :: _ => some (⟨chunk⟩, 2 + chunk.length + 2)
      | '>' :: _ => some (⟨chunk⟩, 2 + chunk.length + 1)
      | _ => none
    else none
  else none

/-- src/src/utils.ts lines 14-72, `findAsciidocLinks`: the four pattern
loops run in order (xref, double-angle anchor, link macro, include), each
pushing its surviving matches; external http/https targets are dropped, the
anchor form additionally re-checks the `.adoc` suffix on the trimmed
target, and include directives are classified by
`hasPartialIncludeAttributes` on the trimmed attribute list. -/
def findAsciidocLinks (content : String) : List AsciidocLink :=
  let xrefs := (scanAll tryXref content).filterMap (fun t =>
    let target := jsTrim t
    if isExternalUrl target then none else some ⟨target, EdgeType.link⟩)
  let anchors := (scanAll tryAnchor content).filterMap (fun t =>
    let target := jsTrim t
    if !isExternalUrl target && endsWithL ".adoc".data target.data then
      some ⟨target, EdgeType.link⟩
    else none)
  let linkMacros := (scanAll tryLink content).filterMap (fun t =>
    let target := jsTrim t
    if isExternalUrl target then none else some ⟨target, EdgeType.link⟩)
  let includes := (scanAll tryInclude content).filterMap (fun ta =>
    let target := jsTrim ta.1
    if isExternalUrl target then none
    else
      some ⟨target,
        if hasPartialIncludeAttributes (jsTrim ta.2) then EdgeType.inclPart
        else EdgeType.incl⟩)
  xrefs ++ anchors ++ linkMacros ++ includes

/-- Split a character list at every character satisfying `p`, keeping empty
segments (as JavaScript `String.prototype.split` does). -/
def splitOnPred (p : Char → Bool) : List Char → List (List Char)
  | [] => [[]]
  | c :: cs =>
    if p c then [] :: splitOnPred p cs
    else
      match splitOnPred p cs with
      | s :: rest => (c :: s) :: rest
      | [] => [[c]]

/-- First capture of `/^= +(.+)$/` on a single line (the line contains no
line terminators).  The greedy ` +` eats the spaces after `=`; `.+` then
needs at least one remaining character, backtracking to a single space when
the line is `=` followed by two or more spaces only. -/
def titleCapture : List Char → Option (List Char)
  | '=' :: rest =>
    let sp := rest.takeWhile (fun c => c = ' ')
    let tail := rest.dropWhile (fun c => c = ' ')
    if sp.length = 0 then none
    else if tail ≠ [] then some tail
    else if 2 ≤ sp.length then some [' ']
    else none
  | _ => none

/-- src/src/utils.ts lines 101-119, `findAsciidocTitle`: the multiline
regex `/^= +(.+)$/m` matches at the first line (lines begin after each LF
or CR) of the shape `= <text>`; the capture is trimmed and truncated to
`titleMaxLength` characters (followed by an ellipsis) when that configured
length is positive and exceeded.  `titleMaxLength` is the value of the
`titleMaxLength` configuration read by `getTitleMaxLength`. -/
def findAsciidocTitle (titleMaxLength : Int) (content : String) : Option String :=
  match (splitOnPred (fun c => c = '\n' || c = '\r') content.data).findSome? titleCapture with
  | none => none
  | some cap =>
    let title : List Char := trimL cap
    if 0 < titleMaxLength && (titleMaxLength : Int) < (title.length : Int) then
      some ⟨title.take titleMaxLength.toNat ++ "...".data⟩
    else some ⟨title⟩

/-- JavaScript truthiness of the extracted title as used by
`if (!title)` in src/src/parsing.ts line 30: `null` and the empty string
are falsy. -/
def titleFalsy : Option String → Bool
  | none => true
  | some t => t = ""

/-- The segment of `l` after the last `/` (the whole of `l` when it has
no `/`). -/
def afterLastSlash (l : List Char) : List Char :=
  l.foldl (fun acc c => if c = '/' then [] else acc ++ [c]) []

/-- Remove trailing `/` characters, as node's `path.basename` and
`path.extname` do before looking at the final segment. -/
def dropTrailingSlashes (l : List Char) : List Char :=
  (l.reverse.dropWhile (fun c => c = '/')).reverse

/-- Node `path.posix.basename` (no extension argument): the final path
segment, ignoring trailing slashes. -/
def nodeBasename (p : String) : String :=
  ⟨afterLastSlash (dropTrailingSlashes p.data)⟩

/-- Core of node `path.posix.extname` applied to a basename `b` (trailing
slashes already removed): the suffix from the last `.`, except that there
is no extension when there is no dot, when the last dot is the first
character of the basename, or when the basename is exactly `..`. -/
def extnameCore (b : List Char) : List Char :=
  let r := b.reverse
  let after := r.takeWhile (fun c => c ≠ '.')
  if after.length = r.length then []
  else if b.length - after.length - 1 = 0 then []
  else if b = ['.', '.'] then []
  else '.' :: after.reverse

/-- Node `path.posix.extname`, as imported by src/src/utils.ts line 3. -/
def extname (p : String) : String :=
  ⟨extnameCore (afterLastSlash (dropTrailingSlashes p.data))⟩

/-- The `pathWithoutExt` local of src/src/utils.ts line 122:
`path.substring(0, path.length - extname(path).length)`. -/
def pathWithoutExt (path : String) : String :=
  ⟨path.data.take (path.data.length - (extname path).data.length)⟩

/-- src/src/utils.ts lines 121-124, `id`: the md5 digest of the path with
its extension stripped.  The digest is the abstract `hash` parameter: a
pure function of its input, hence deterministic and stable across runs;
its injectivity models md5 collision freedom. -/
def id (hash : String → String) (path : String) : String :=
  hash (pathWithoutExt path)

/-- Resolve `..`, `.`, empty segments, leading and trailing slashes:
node `path.posix.normalize` working on the list of `/`-separated
segments.  `stack` holds the output segments in reverse. -/
def normalizeSegs (allowAboveRoot : Bool) : List (List Char) → List (List Char) → List (List Char)
  | stack, [] => stack.reverse
  | stack, seg :: rest =>
    if seg = [] || seg = ['.'] then normalizeSegs allowAboveRoot stack rest
    else if seg = ['.', '.'] then
      match stack with
      | top :: stk =>
        if top = ['.', '.'] then
          normalizeSegs allowAboveRoot (if allowAboveRoot then seg :: (top :: stk) else top :: stk) rest
        else normalizeSegs allowAboveRoot stk rest
      | [] => normalizeSegs allowAboveRoot (if allowAboveRoot then [seg] else []) rest
    else normalizeSegs allowAboveRoot (seg :: stack) rest

/-- Join path segments with `/` (JavaScript `array.join("/")`). -/
def joinSegs : List (List Char) → List Char
  | [] => []
  | [s] => s
  | s :: t :: rest => s ++ '/' :: joinSegs (t :: rest)

/-- Node `path.posix.normalize`, as used by src/src/parsing.ts lines 22 and
51-53: the empty path normalizes to `.`; otherwise `.`/`..`/empty segments
are resolved (`..` may climb above the root only for relative paths) and
the leading slash of an absolute path and a trailing slash are restored. -/
def normalize (p : String) : String :=
  match p.data with
  | [] => "."
  | c :: cs =>
    let l := c :: cs
    let isAbs := c = '/'
    let trailing := l.getLast? = some '/'
    let body := joinSegs (normalizeSegs (!isAbs) [] (splitOnPred (fun d => d = '/') l))
    if body = [] then
      if isAbs then "/" else if trailing then "./" else "."
    else
      ⟨(if isAbs then '/' :: body else body) ++ (if trailing then ['/'] else [])⟩

/-- Node `path.posix.isAbsolute`. -/
def isAbsolute (p : String) : Bool := startsWithL "/".data p.data

/-- src/src/parsing.ts lines 48-54: the parent directory is
`filePath.split(path.sep).slice(0, -1).join(path.sep)`, and a reference
target is normalized directly when absolute, otherwise resolved against the
parent directory and normalized. -/
def resolveTarget (filePath : String) (rawTarget : String) : String :=
  let parentDirectory : List Char :=
    joinSegs ((splitOnPred (fun c => c = '/') filePath.data).dropLast)
  if isAbsolute rawTarget then normalize rawTarget
  else normalize ⟨parentDirectory ++ '/' :: rawTarget.data⟩

/-- src/src/types.ts, `Node`. -/
structure Node where
  id : String
  path : String
  label : String
deriving DecidableEq

/-- src/src/types.ts, `Edge`. -/
structure Edge where
  source : String
  target : String
  type : EdgeType
deriving DecidableEq

/-- src/src/types.ts, `Graph`. -/
structure Graph where
  nodes : List Node
  edges : List Edge
deriving DecidableEq

/-- JavaScript `Array.prototype.findIndex`, as an `Option Nat` instead of
the `-1` sentinel. -/
def findIndex {α : Type} (p : α → Bool) : List α → Option Nat
  | [] => none
  | a :: as => if p a then some 0 else (findIndex p as).map (· + 1)

/-- In-place update `graph.nodes[index].label = title` of
src/src/parsing.ts line 38. -/
def setLabelAt : List Node → Nat → String → List Node
  | [], _, _ => []
  | n :: ns, 0, t => { n with label := t } :: ns
  | n :: ns, i + 1, t => n :: setLabelAt ns i t

/-- src/src/utils.ts lines 164-165, `exists`: whether some node of the
graph carries the given id (`!!graph.nodes.find(...)`). -/
def existsNode (graph : Graph) (i : String) : Bool :=
  (graph.nodes.find? (fun node => node.id = i)).isSome

/-- src/src/utils.ts lines 167-171, `filterNonExistingEdges`: keep exactly
the edges whose source and target ids both belong to some node. -/
def filterNonExistingEdges (graph : Graph) : Graph :=
  { graph with
    edges := graph.edges.filter (fun edge =>
      existsNode graph edge.source && existsNode graph edge.target) }

/-- src/src/parsing.ts lines 26-61: the body of `parseFile` once the file
content has been read.  `filePath` is already normalized by the caller.
A falsy title (absent, or trimming to the empty string) removes the node
found by path, if any, and returns without touching the edges.  Otherwise
the node's label is updated in place (or a fresh node appended), every edge
whose source is `id(filePath)` is removed, and one edge per extracted link
is appended in extraction order. -/
def parseFileContent (titleMaxLength : Int) (hash : String → String)
    (graph : Graph) (filePath content : String) : Graph :=
  let title := findAsciidocTitle titleMaxLength content
  let index := findIndex (fun node => node.path = filePath) graph.nodes
  if titleFalsy title then
    match index with
    | some i => { graph with nodes := graph.nodes.eraseIdx i }
    | none => graph
  else
    let t := title.getD ""
    let nodes :=
      match index with
      | some i => setLabelAt graph.nodes i t
      | none => graph.nodes ++ [{ id := id hash filePath, path := filePath, label := t }]
    let edges := graph.edges.filter (fun edge => edge.source ≠ id hash filePath)
    let newEdges := (findAsciidocLinks content).map (fun link =>
      { source := id hash filePath,
        target := id hash (resolveTarget filePath link.target),
        type := link.type })
    { nodes := nodes, edges := edges ++ newEdges }

/-- src/src/parsing.ts lines 21-62, `parseFile`: the path is normalized,
the file is read (`readFile` returns `none` on an I/O failure, in which
case the rejection propagates before any mutation and the graph is
returned untouched with `false`), and the content is parsed. -/
def parseFile (titleMaxLength : Int) (hash : String → String)
    (readFile : String → Option String) (graph : Graph) (filePath : String) :
    Graph × Bool :=
  match readFile (normalize filePath) with
  | none => (graph, false)
  | some content =>
    (parseFileContent titleMaxLength hash graph (normalize filePath) content, true)

/-- A settled promise: the instant it settled and whether it fulfilled
(`true`) or rejected (`false`).  src/src/parsing.ts launches every per-file
callback eagerly, so all promises run concurrently and each settles at its
own time, independent of the others. -/
structure Settled where
  time : Nat
  fulfilled : Bool
deriving DecidableEq

/-- Least element of a list of instants. -/
def minTime : List Nat → Option Nat
  | [] => none
  | t :: ts => some (ts.foldl Nat.min t)

/-- Greatest element of a list of instants (`0` when empty). -/
def maxTime (ts : List Nat) : Nat := ts.foldl Nat.max 0

/-- Model of ECMAScript `Promise.all` over already-launched promises: if
every promise fulfills, the combined promise fulfills once the last one has
settled; as soon as any promise rejects, the combined promise rejects at
that first rejection, without waiting for the remaining promises. -/
def promiseAll (ps : List Settled) : Settled :=
  match minTime (((ps.filter (fun p => !p.fulfilled)).map Settled.time)) with
  | some t => { time := t, fulfilled := false }
  | none => { time := maxTime (ps.map Settled.time), fulfilled := true }

/-- src/src/parsing.ts lines 72-90, `parseDirectory`: `files` is the list
returned by the host's `findFiles` glob over the configured extensions;
files whose basename starts with `.` are skipped, the callback is invoked
for every remaining file without awaiting earlier ones (their settlement
behavior is the `outcome` of each file), and the collected promises are
joined with `Promise.all`.  Returns the launched files and the settlement
of the scan. -/
def parseDirectory (files : List String) (outcome : String → Settled) :
    List String × Settled :=
  let eligible := files.filter (fun file =>
    !(startsWithL ".".data (nodeBasename file).data))
  (eligible, promiseAll (eligible.map outcome))

end AsciidocLinks

namespace GraphView

/-!
Model of src/static/graphs/default/graph.js, the visualization layer's
refresh handler.  Snapshot nodes arrive as `{id, path, label}` objects
(src/src/types.ts and spec §6); the simulation's stored nodes (`nodesData`)
have the same fields.  Stored edges (`linksData`) have had their `source`
and `target` resolved by d3's force link to node objects, while incoming
snapshot edges carry plain id strings.
-/

/-- A node of the snapshot or of the running simulation.  It has exactly
the fields `id`, `path`, `label`. -/
structure VNode where
  id : String
  path : String
  label : String
deriving DecidableEq

/-- Reading the `title` property of a snapshot or simulation node: no such
field exists on these objects, so the access yields `undefined`
(modelled as `none`). -/
def VNode.title (_node : VNode) : Option String := none

/-- A stored edge after d3 resolved its endpoints to node objects. -/
structure SimEdge where
  source : VNode
  target : VNode
  type : Option String
deriving DecidableEq

/-- An incoming snapshot edge with string endpoints. -/
structure SnapEdge where
  source : String
  target : String
  type : Option String
deriving DecidableEq

/-- JavaScript truthiness of a string-or-undefined value: `undefined` and
the empty string are falsy. -/
def jsFalsy : Option String → Bool
  | none => true
  | some s => s = ""

/-- JavaScript strict inequality `!==` between two string-or-undefined
values. -/
def jsStrictNe : Option String → Option String → Bool
  | some a, some b => a ≠ b
  | none, none => false
  | _, _ => true

/-- Fallback of `edge.type || "link"`: a missing or empty type becomes
`"link"`. -/
def typeOr : Option String → String
  | none => "link"
  | some s => if s = "" then "link" else s

/-- JavaScript `Map.set` semantics over an association list: overwrite the
existing entry or append a fresh one. -/
def mapSet (m : List (String × String)) (k v : String) : List (String × String) :=
  if m.any (fun kv => kv.1 = k) then
    m.map (fun kv => if kv.1 = k then (k, v) else kv)
  else m ++ [(k, v)]

/-- JavaScript `Map.get` semantics: the stored value or `undefined`. -/
def mapGet (m : List (String × String)) (k : String) : Option String :=
  (m.find? (fun kv => kv.1 = k)).map (fun kv => kv.2)

/-- src/static/graphs/default/graph.js lines 17-35, `sameNodes`: compare
lengths, build a map from previous node id to its label, then require every
next node to find a truthy entry strictly equal to its `title` property. -/
def sameNodes (previous next : List VNode) : Bool :=
  if next.length ≠ previous.length then false
  else
    let m := previous.foldl (fun m node => mapSet m node.id node.label) []
    next.all (fun node =>
      let found := mapGet m node.id
      !(jsFalsy found || jsStrictNe found node.title))

/-- src/static/graphs/default/graph.js lines 37-54, `sameEdges`: compare
lengths, collect the previous `source.id-target.id-type` keys into a set,
and require every next edge's key to be present. -/
def sameEdges (previous : List SimEdge) (next : List SnapEdge) : Bool :=
  if next.length ≠ previous.length then false
  else
    let keys := previous.map (fun e =>
      e.source.id ++ "-" ++ e.target.id ++ "-" ++ typeOr e.type)
    next.all (fun e =>
      keys.contains (e.source ++ "-" ++ e.target ++ "-" ++ typeOr e.type))

/-- src/static/graphs/default/graph.js lines 127-141, the `refresh` case of
the message listener: `restart()` runs unless both `sameNodes` and
`sameEdges` hold for the incoming payload. -/
def refreshRestarts (nodesData : List VNode) (linksData : List SimEdge)
    (nodes : List VNode) (edges : List SnapEdge) : Bool :=
  !(sameNodes nodesData nodes && sameEdges linksData edges)

end GraphView

namespace AsciidocLinks

/-! ### Helper lemmas -/

lemma find?_id_isSome (l : List Node) (i : String) :
    (l.find? (fun node => node.id = i)).isSome = true ↔ ∃ n ∈ l, n.id = i := by
  induction l with
  | nil => simp [List.find?]
  | cons a as ih =>
    by_cases h : a.id = i
    · simp [List.find?, h]
    · simp [List.find?, h, ih]

lemma existsNode_iff (g : Graph) (i : String) :
    existsNode g i = true ↔ ∃ n ∈ g.nodes, n.id = i := by
  unfold existsNode
  exact find?_id_isSome g.nodes i

/-- Claim C5: after `filterNonExistingEdges`, the nodes are untouched and
the remaining edges are exactly those edges of the input graph whose source
and target ids both belong to some node of the graph. -/
theorem filterNonExistingEdges_spec (graph : Graph) :
    (filterNonExistingEdges graph).nodes = graph.nodes ∧
    ∀ edge : Edge,
      edge ∈ (filterNonExistingEdges graph).edges ↔
        edge ∈ graph.edges ∧
          (∃ n ∈ graph.nodes, n.id = edge.source) ∧
          (∃ n ∈ graph.nodes, n.id = edge.target) := by
  refine ⟨rfl, fun edge => ?_⟩
  unfold filterNonExistingEdges
  simp only [List.mem_filter, Bool.and_eq_true, existsNode_iff, and_assoc]

/-- Claim C7: when reading the file fails, `parseFile` fails without
touching the graph at all. -/
theorem parseFile_read_failure (titleMaxLength : Int) (hash : String → String)
    (readFile : String → Option String) (graph : Graph) (filePath : String)
    (h : readFile (normalize filePath) = none) :
    parseFile titleMaxLength hash readFile graph filePath = (graph, false) := by
  unfold parseFile
  rw [h]

theorem parseFile_read_failure_witness :
    ((fun _ : String => (none : Option String)) (normalize "a.adoc") = none) ∧
    parseFile 0 (fun s => s) (fun _ => none)
        ⟨[⟨"x", "a.adoc", "T"⟩], [⟨"s", "t", EdgeType.link⟩]⟩ "a.adoc" =
      (⟨[⟨"x", "a.adoc", "T"⟩], [⟨"s", "t", EdgeType.link⟩]⟩, false) :=
  ⟨rfl, parseFile_read_failure 0 (fun s => s) (fun _ => none) _ "a.adoc" rfl⟩

/-- Claim C6: when the content yields no (truthy) title, `parseFile`
removes the node found by path when it exists, leaves the nodes unchanged
otherwise, and removes no edge at all. -/
theorem parseFile_no_title (titleMaxLength : Int) (hash : String → String)
    (readFile : String → Option String) (graph : Graph) (filePath content : String)
    (hread : readFile (normalize filePath) = some content)
    (htitle : titleFalsy (findAsciidocTitle titleMaxLength content) = true) :
    (parseFile titleMaxLength hash readFile graph filePath).1.edges = graph.edges ∧
    (parseFile titleMaxLength hash readFile graph filePath).1.nodes =
      (match findIndex (fun node => node.path = normalize filePath) graph.nodes with
       | some i => graph.nodes.eraseIdx i
       | none => graph.nodes) := by
  simp only [parseFile, hread, parseFileContent, htitle, if_true]
  cases findIndex (fun node => node.path = normalize filePath) graph.nodes <;>
    exact ⟨rfl, rfl⟩

theorem parseFile_no_title_witness :
    titleFalsy (findAsciidocTitle 0 "body") = true ∧
    (parseFile 0 (fun s => s) (fun _ => some "body")
        ⟨[⟨"x", "a.adoc", "T"⟩], [⟨"s", "t", EdgeType.link⟩]⟩ "a.adoc").1.edges =
      [⟨"s", "t", EdgeType.link⟩] :=
  ⟨by decide,
   (parseFile_no_title 0 (fun s => s) (fun _ => some "body") _ "a.adoc" "body" rfl
      (by decide)).1⟩

/-- Claim C1: when the content yields a truthy title, the edges after
`parseFile` are exactly the previous edges whose source differs from
`id(path)` (in their original order), followed by one edge per extracted
reference in extraction order, each with source `id(path)` and target the
id of the reference target resolved against the file's directory. -/
theorem parseFile_frame (titleMaxLength : Int) (hash : String → String)
    (readFile : String → Option String) (graph : Graph) (filePath content : String)
    (hread : readFile (normalize filePath) = some content)
    (htitle : titleFalsy (findAsciidocTitle titleMaxLength content) = false) :
    (parseFile titleMaxLength hash readFile graph filePath).1.edges =
      graph.edges.filter (fun edge => edge.source ≠ id hash (normalize filePath)) ++
        (findAsciidocLinks content).map (fun link =>
          { source := id hash (normalize filePath),
            target := id hash (resolveTarget (normalize filePath) link.target),
            type := link.type }) := by
  simp only [parseFile, hread, parseFileContent, htitle, Bool.false_eq_true, if_false]

theorem parseFile_frame_witness :
    titleFalsy (findAsciidocTitle 0 "= T\nxref:b.adoc[]") = false ∧
    (parseFile 0 (fun s => s) (fun _ => some "= T\nxref:b.adoc[]")
        ⟨[], [⟨"a", "old", EdgeType.link⟩, ⟨"z", "t2", EdgeType.link⟩]⟩ "a.adoc").1.edges =
      ([⟨"a", "old", EdgeType.link⟩, ⟨"z", "t2", EdgeType.link⟩] : List Edge).filter
          (fun edge => edge.source ≠ id (fun s => s) (normalize "a.adoc")) ++
        (findAsciidocLinks "= T\nxref:b.adoc[]").map (fun link =>
          { source := id (fun s => s) (normalize "a.adoc"),
            target := id (fun s => s) (resolveTarget (normalize "a.adoc") link.target),
            type := link.type }) :=
  ⟨by decide,
   parseFile_frame 0 (fun s => s) (fun _ => some "= T\nxref:b.adoc[]") _ "a.adoc"
     "= T\nxref:b.adoc[]" rfl (by decide)⟩

end AsciidocLinks

namespace AsciidocLinks

lemma findIndex_setLabelAt (p : String) (ns : List Node) (i : Nat) (t : String) :
    findIndex (fun node => node.path = p) (setLabelAt ns i t) =
      findIndex (fun node => node.path = p) ns := by
  induction ns generalizing i with
  | nil => cases i <;> rfl
  | cons n ns ih =>
    cases i with
    | zero => simp [setLabelAt, findIndex]
    | succ j => simp [setLabelAt, findIndex, ih]

lemma setLabelAt_idem (ns : List Node) (i : Nat) (t : String) :
    setLabelAt (setLabelAt ns i t) i t = setLabelAt ns i t := by
  induction ns generalizing i with
  | nil => cases i <;> rfl
  | cons n ns ih =>
    cases i with
    | zero => rfl
    | succ j => simp [setLabelAt, ih]

lemma findIndex_append_of_none {α : Type} (p : α → Bool) (ns : List α) (x : α)
    (h : findIndex p ns = none) (hx : p x = true) :
    findIndex p (ns ++ [x]) = some ns.length := by
  induction ns with
  | nil => simp [findIndex, hx]
  | cons a as ih =>
    by_cases hpa : p a
    · rw [findIndex, if_pos hpa] at h
      exact absurd h (by simp)
    · rw [findIndex, if_neg hpa] at h
      have h2 : findIndex p as = none := by
        cases hfi : findIndex p as <;> simp [hfi] at h ⊢
      rw [List.cons_append, findIndex, if_neg hpa, ih h2]
      rfl

lemma setLabelAt_append_length (ns : List Node) (x : Node) (t : String) :
    setLabelAt (ns ++ [x]) ns.length t = ns ++ [{ x with label := t }] := by
  induction ns with
  | nil => rfl
  | cons a as ih => simp [setLabelAt, ih]

lemma filter_idem {α : Type} (p : α → Bool) (l : List α) :
    (l.filter p).filter p = l.filter p := by
  induction l with
  | nil => rfl
  | cons a as ih => by_cases h : p a <;> simp [List.filter_cons, h, ih]

lemma filter_new_edges (hash : String → String) (fp content : String) :
    ((findAsciidocLinks content).map (fun link =>
        ({ source := id hash fp,
           target := id hash (resolveTarget fp link.target),
           type := link.type } : Edge))).filter
      (fun edge => edge.source ≠ id hash fp) = [] := by
  induction findAsciidocLinks content with
  | nil => rfl
  | cons l ls ih => simp [List.filter_cons, ih]

lemma parseFileContent_idem (titleMaxLength : Int) (hash : String → String)
    (graph : Graph) (fp content : String)
    (htitle : titleFalsy (findAsciidocTitle titleMaxLength content) = false) :
    parseFileContent titleMaxLength hash
        (parseFileContent titleMaxLength hash graph fp content) fp content =
      parseFileContent titleMaxLength hash graph fp content := by
  cases hidx : findIndex (fun node => node.path = fp) graph.nodes with
  | some i =>
    have hg : parseFileContent titleMaxLength hash graph fp content =
        { nodes := setLabelAt graph.nodes i ((findAsciidocTitle titleMaxLength content).getD ""),
          edges := graph.edges.filter (fun edge => edge.source ≠ id hash fp) ++
            (findAsciidocLinks content).map (fun link =>
              { source := id hash fp,
                target := id hash (resolveTarget fp link.target),
                type := link.type }) } := by
      simp only [parseFileContent, htitle, Bool.false_eq_true, if_false, hidx]
    rw [hg]
    simp only [parseFileContent, htitle, Bool.false_eq_true, if_false,
      findIndex_setLabelAt, hidx, setLabelAt_idem]
    rw [List.filter_append, filter_idem, filter_new_edges, List.append_nil]
  | none =>
    have hg : parseFileContent titleMaxLength hash graph fp content =
        { nodes := graph.nodes ++
            [{ id := id hash fp, path := fp,
               label := (findAsciidocTitle titleMaxLength content).getD "" }],
          edges := graph.edges.filter (fun edge => edge.source ≠ id hash fp) ++
            (findAsciidocLinks content).map (fun link =>
              { source := id hash fp,
                target := id hash (resolveTarget fp link.target),
                type := link.type }) } := by
      simp only [parseFileContent, htitle, Bool.false_eq_true, if_false, hidx]
    rw [hg]
    have hfi : findIndex (fun node => node.path = fp)
        (graph.nodes ++
          [{ id := id hash fp, path := fp,
             label := (findAsciidocTitle titleMaxLength content).getD "" }]) =
        some graph.nodes.length :=
      findIndex_append_of_none _ _ _ hidx (by simp)
    simp only [parseFileContent, htitle, Bool.false_eq_true, if_false, hfi,
      setLabelAt_append_length]
    rw [List.filter_append, filter_idem, filter_new_edges, List.append_nil]

/-- Claim C2: re-parsing a path with unchanged (title-yielding) content is
idempotent: the second run reproduces exactly the graph produced by the
first run, in particular the edge set contributed by the file's source id
and the node for that path. -/
theorem parseFile_idempotent (titleMaxLength : Int) (hash : String → String)
    (readFile : String → Option String) (graph : Graph) (filePath content : String)
    (hread : readFile (normalize filePath) = some content)
    (htitle : titleFalsy (findAsciidocTitle titleMaxLength content) = false) :
    (parseFile titleMaxLength hash readFile
        (parseFile titleMaxLength hash readFile graph filePath).1 filePath).1 =
      (parseFile titleMaxLength hash readFile graph filePath).1 := by
  simp only [parseFile, hread]
  exact parseFileContent_idem titleMaxLength hash graph (normalize filePath) content htitle

theorem parseFile_idempotent_witness :
    titleFalsy (findAsciidocTitle 0 "= T\nxref:b.adoc[]") = false ∧
    (parseFile 0 (fun s => s) (fun _ => some "= T\nxref:b.adoc[]")
        (parseFile 0 (fun s => s) (fun _ => some "= T\nxref:b.adoc[]")
          ⟨[], [⟨"z", "t2", EdgeType.link⟩]⟩ "a.adoc").1 "a.adoc").1 =
      (parseFile 0 (fun s => s) (fun _ => some "= T\nxref:b.adoc[]")
        ⟨[], [⟨"z", "t2", EdgeType.link⟩]⟩ "a.adoc").1 :=
  ⟨by decide,
   parseFile_idempotent 0 (fun s => s) (fun _ => some "= T\nxref:b.adoc[]") _ "a.adoc"
     "= T\nxref:b.adoc[]" rfl (by decide)⟩

end AsciidocLinks

namespace AsciidocLinks

lemma startsWithL_iff (lit : List Char) :
    ∀ s, startsWithL lit s = true ↔ ∃ post, s = lit ++ post := by
  induction lit with
  | nil => intro s; simp [startsWithL]
  | cons p ps ih =>
    intro s
    cases s with
    | nil =>
      simp [startsWithL]
    | cons c cs =>
      simp only [startsWithL, Bool.and_eq_true, decide_eq_true_eq, ih]
      constructor
      · rintro ⟨rfl, post, rfl⟩
        exact ⟨post, rfl⟩
      · rintro ⟨post, h⟩
        injection h with h1 h2
        exact ⟨h1.symm, post, h2⟩

lemma boundedTestAux_iff (lit : List Char) (hlit : lit ≠ []) :
    ∀ (s : List Char) (prev : Option Char),
      boundedTestAux lit prev s = true ↔
        ∃ pre post, s = pre ++ lit ++ post ∧ boundaryOk (lastOr prev pre) = true := by
  intro s
  induction s with
  | nil =>
    intro prev
    constructor
    · intro h
      cases lit with
      | nil => exact absurd rfl hlit
      | cons x xs => simp [boundedTestAux, startsWithL] at h
    · rintro ⟨pre, post, h, -⟩
      have hl := congrArg List.length h
      simp [List.length_append] at hl
      cases lit with
      | nil => exact absurd rfl hlit
      | cons x xs => simp at hl; omega
  | cons c cs ih =>
    intro prev
    simp only [boundedTestAux, Bool.or_eq_true, Bool.and_eq_true]
    constructor
    · rintro (⟨hb, hs⟩ | h)
      · obtain ⟨post, hpost⟩ := (startsWithL_iff lit _).1 hs
        exact ⟨[], post, by simpa using hpost, hb⟩
      · obtain ⟨pre, post, hcs, hb⟩ := (ih (some c)).1 h
        exact ⟨c :: pre, post, by rw [List.cons_append, List.cons_append, ← hcs], hb⟩
    · rintro ⟨pre, post, heq, hb⟩
      cases pre with
      | nil =>
        refine Or.inl ⟨hb, ?_⟩
        rw [startsWithL_iff]
        exact ⟨post, by simpa using heq⟩
      | cons d pre2 =>
        refine Or.inr ?_
        rw [List.cons_append, List.cons_append] at heq
        injection heq with h1 h2
        subst h1
        exact (ih (some c)).2 ⟨pre2, post, h2, hb⟩

/-- Claim C3 counterexample: the attribute list `xtag=1` contains the
substring `tag=`, yet the extractor classifies the include as plain
`include`, because the source tests `\btag=` (word boundary), not a bare
substring. -/
theorem include_classification_cex :
    findAsciidocLinks "include::a.adoc[xtag=1]" = [⟨"a.adoc", EdgeType.incl⟩] ∧
    substrOccurs "tag=".data "xtag=1".data = true := by
  decide

lemma reTestWordStart_iff (lit s : String) (hlit : lit.data ≠ []) :
    reTestWordStart lit s = true ↔ wordBoundedOccurs lit.data s.data := by
  unfold reTestWordStart wordBoundedOccurs
  exact boundedTestAux_iff lit.data hlit s.data none

/-- Claim C3 amended: an include's attribute list is classified as partial
if and only if it contains an occurrence of `tag=`, `tags=` or `lines=`
that is at the start or immediately preceded by a non-word character (the
regex word-boundary rule), not a bare substring occurrence. -/
theorem hasPartialIncludeAttributes_iff (attributes : String) :
    hasPartialIncludeAttributes attributes = true ↔
      (wordBoundedOccurs "tag=".data attributes.data ∨
       wordBoundedOccurs "tags=".data attributes.data ∨
       wordBoundedOccurs "lines=".data attributes.data) := by
  by_cases h : attributes = ""
  · subst h
    have hfalse : hasPartialIncludeAttributes "" = false := rfl
    rw [hfalse]
    simp only [Bool.false_eq_true, false_iff]
    rintro (⟨pre, post, hx, -⟩ | ⟨pre, post, hx, -⟩ | ⟨pre, post, hx, -⟩) <;>
      · have hl := congrArg List.length hx
        simp [List.length_append] at hl
        omega
  · simp only [hasPartialIncludeAttributes, if_neg h, Bool.or_eq_true]
    rw [reTestWordStart_iff _ _ (by decide), reTestWordStart_iff _ _ (by decide),
      reTestWordStart_iff _ _ (by decide)]
    tauto

/-- Claim C10: parsing `a.adoc` and then `a.asciidoc` (both yielding
titles) from the empty graph produces two nodes with the same id but
different paths, because `parseFile` locates existing nodes by path, never
by id, while the id strips the extension. -/
theorem duplicate_node_ids :
    (let readFile := fun p =>
        if p = "a.adoc" then some "= A"
        else if p = "a.asciidoc" then some "= B" else none
     let g1 := (parseFile 0 (fun s => s) readFile ⟨[], []⟩ "a.adoc").1
     let g2 := (parseFile 0 (fun s => s) readFile g1 "a.asciidoc").1
     g2.nodes.map Node.id = ["a", "a"] ∧
       g2.nodes.map Node.path = ["a.adoc", "a.asciidoc"]) := by
  decide

end AsciidocLinks

namespace AsciidocLinks

lemma foldl_seg_no_slash (ys : List Char) (hys : ∀ c ∈ ys, c ≠ '/') :
    ∀ a : List Char,
      ys.foldl (fun acc c => if c = '/' then [] else acc ++ [c]) a = a ++ ys := by
  induction ys with
  | nil => intro a; simp
  | cons y ys ih =>
    intro a
    have hy : y ≠ '/' := hys y (List.mem_cons_self y ys)
    have hys2 : ∀ c ∈ ys, c ≠ '/' := fun c hc => hys c (List.mem_cons_of_mem y hc)
    rw [List.foldl_cons, if_neg hy, ih hys2, List.append_assoc]
    rfl

lemma afterLastSlash_append (xs ys : List Char) (hys : ∀ c ∈ ys, c ≠ '/') :
    afterLastSlash (xs ++ ys) = afterLastSlash xs ++ ys := by
  unfold afterLastSlash
  rw [List.foldl_append]
  exact foldl_seg_no_slash ys hys _

lemma dropTrailingSlashes_concat (l : List Char) (y : Char) (hy : y ≠ '/') :
    dropTrailingSlashes (l ++ [y]) = l ++ [y] := by
  unfold dropTrailingSlashes
  rw [List.reverse_append]
  simp only [List.reverse_cons, List.reverse_nil, List.nil_append, List.singleton_append,
    List.dropWhile_cons]
  rw [if_neg (by simpa using hy)]
  simp

lemma takeWhile_append_stop (P : Char → Bool) (xs : List Char) (y : Char) (ys : List Char)
    (hxs : ∀ c ∈ xs, P c = true) (hy : P y = false) :
    (xs ++ y :: ys).takeWhile P = xs := by
  induction xs with
  | nil => simp [List.takeWhile_cons, hy]
  | cons a as ih =>
    have ha : P a = true := hxs a (List.mem_cons_self a as)
    have has : ∀ c ∈ as, P c = true := fun c hc => hxs c (List.mem_cons_of_mem a hc)
    rw [List.cons_append, List.takeWhile_cons, if_pos ha, ih has]

lemma extnameCore_append_ext (B w : List Char) (hB : B ≠ []) (hw : w ≠ [])
    (hwdot : ∀ c ∈ w, c ≠ '.') :
    extnameCore (B ++ '.' :: w) = '.' :: w := by
  have hrev : (B ++ '.' :: w).reverse = w.reverse ++ '.' :: B.reverse := by
    rw [List.reverse_append, List.reverse_cons, List.append_assoc, List.singleton_append]
  have htw : (w.reverse ++ '.' :: B.reverse).takeWhile (fun c => c ≠ '.') = w.reverse := by
    apply takeWhile_append_stop
    · intro c hc
      simpa using hwdot c (List.mem_reverse.mp hc)
    · simp
  have hlenB : 0 < B.length := List.length_pos.mpr hB
  have hlenw : 0 < w.length := List.length_pos.mpr hw
  unfold extnameCore
  simp only [hrev, htw]
  rw [if_neg (by simp only [List.length_append, List.length_reverse, List.length_cons]; omega)]
  rw [if_neg (by simp only [List.length_append, List.length_reverse, List.length_cons]; omega)]
  rw [if_neg (by
    intro hx
    have := congrArg List.length hx
    simp [List.length_append] at this
    omega)]
  rw [List.reverse_reverse]

lemma pathWithoutExt_append_ext (p sfx : String) (hp : afterLastSlash p.data ≠ [])
    (w : List Char) (hsfx : sfx.data = '.' :: w) (hw : w ≠ [])
    (hwdot : ∀ c ∈ w, c ≠ '.') (hwsl : ∀ c ∈ w, c ≠ '/') :
    pathWithoutExt (p ++ sfx) = p := by
  have hd : (p ++ sfx).data = p.data ++ '.' :: w := by
    rw [String.data_append, hsfx]
  have hnear : ∀ c ∈ '.' :: w, c ≠ '/' := by
    intro c hc
    rcases List.mem_cons.mp hc with rfl | hcw
    · decide
    · exact hwsl c hcw
  obtain ⟨w2, y, hwy⟩ : ∃ w2 y, w = w2 ++ [y] :=
    ⟨w.dropLast, w.getLast hw, (List.dropLast_append_getLast hw).symm⟩
  have hy : y ≠ '/' := by
    apply hwsl
    rw [hwy]
    simp
  have hdrop : dropTrailingSlashes (p.data ++ '.' :: w) = p.data ++ '.' :: w := by
    have : p.data ++ '.' :: w = (p.data ++ '.' :: w2) ++ [y] := by
      rw [hwy, List.append_assoc]
      rfl
    rw [this, dropTrailingSlashes_concat _ y hy]
  have hext : (extname (p ++ sfx)).data = '.' :: w := by
    unfold extname
    rw [hd, hdrop, afterLastSlash_append _ _ hnear]
    exact extnameCore_append_ext _ w hp hw hwdot
  unfold pathWithoutExt
  rw [hext, hd]
  have hlen : (p.data ++ '.' :: w).length - ('.' :: w).length = p.data.length := by
    simp [List.length_append]
  rw [hlen, List.take_left]

/-- Claim C4 counterexample: with the (injective) identity standing in for
the md5 digest, `id("" ++ ".adoc")` differs from `id("" ++ ".asciidoc")`:
appending an extension to the empty path produces a dotfile whose leading
dot is not an extension, so the stems `.adoc` and `.asciidoc` differ and
the claimed equality `id(p + ".adoc") == id(p + ".asciidoc")` fails at
`p = ""`. -/
theorem id_extension_cex :
    AsciidocLinks.id (fun s => s) ("" ++ ".adoc") ≠
      AsciidocLinks.id (fun s => s) ("" ++ ".asciidoc") := by
  decide

/-- Claim C4 amended: for an injective digest, ids agree exactly when the
extension-stripped paths agree; and `id(p + ".adoc") == id(p + ".asciidoc")`
holds for every `p` whose final path segment is nonempty (so that the
appended extension is a real extension rather than the leading dot of a
dotfile). -/
theorem id_stems (hash : String → String) (hinj : Function.Injective hash) :
    (∀ p1 p2 : String,
      AsciidocLinks.id hash p1 = AsciidocLinks.id hash p2 ↔
        pathWithoutExt p1 = pathWithoutExt p2) ∧
    (∀ p : String, afterLastSlash p.data ≠ [] →
      AsciidocLinks.id hash (p ++ ".adoc") = AsciidocLinks.id hash (p ++ ".asciidoc")) := by
  constructor
  · intro p1 p2
    exact hinj.eq_iff
  · intro p hp
    unfold id
    rw [pathWithoutExt_append_ext p ".adoc" hp "adoc".data rfl (by decide) (by decide)
        (by decide),
      pathWithoutExt_append_ext p ".asciidoc" hp "asciidoc".data rfl (by decide) (by decide)
        (by decide)]

theorem id_stems_witness :
    afterLastSlash "dir/a".data ≠ [] ∧
    AsciidocLinks.id (fun s => s) ("dir/a" ++ ".adoc") =
      AsciidocLinks.id (fun s => s) ("dir/a" ++ ".asciidoc") :=
  ⟨by decide, (id_stems (fun s => s) (fun _ _ hab => hab)).2 "dir/a" (by decide)⟩

end AsciidocLinks

namespace AsciidocLinks

lemma foldl_max_init_le (ts : List Nat) : ∀ a : Nat, a ≤ ts.foldl Nat.max a := by
  induction ts with
  | nil => intro a; simp
  | cons t ts ih =>
    intro a
    exact le_trans (Nat.le_max_left a t) (ih (Nat.max a t))

lemma le_foldl_max (ts : List Nat) : ∀ (a x : Nat), x ∈ ts → x ≤ ts.foldl Nat.max a := by
  induction ts with
  | nil => intro a x hx; cases hx
  | cons t ts ih =>
    intro a x hx
    rcases List.mem_cons.mp hx with rfl | hx2
    · exact le_trans (Nat.le_max_right a x) (foldl_max_init_le ts (Nat.max a x))
    · exact ih (Nat.max a t) x hx2

lemma foldl_min_le_init (ts : List Nat) : ∀ a : Nat, ts.foldl Nat.min a ≤ a := by
  induction ts with
  | nil => intro a; simp
  | cons t ts ih =>
    intro a
    exact le_trans (ih (Nat.min a t)) (Nat.min_le_left a t)

lemma foldl_min_le_mem (ts : List Nat) : ∀ (a x : Nat), x ∈ ts → ts.foldl Nat.min a ≤ x := by
  induction ts with
  | nil => intro a x hx; cases hx
  | cons t ts ih =>
    intro a x hx
    rcases List.mem_cons.mp hx with rfl | hx2
    · exact le_trans (foldl_min_le_init ts (Nat.min a x)) (Nat.min_le_right a x)
    · exact ih (Nat.min a t) x hx2

lemma promiseAll_all_fulfilled (ps : List Settled) (h : ∀ r ∈ ps, r.fulfilled = true) :
    (promiseAll ps).fulfilled = true ∧ ∀ r ∈ ps, r.time ≤ (promiseAll ps).time := by
  have hfil : ps.filter (fun q => !q.fulfilled) = [] := by
    rw [List.filter_eq_nil_iff]
    intro r hr
    simp [h r hr]
  unfold promiseAll
  rw [hfil]
  refine ⟨rfl, fun r hr => ?_⟩
  exact le_foldl_max _ 0 r.time (List.mem_map_of_mem Settled.time hr)

lemma promiseAll_rejected (ps : List Settled) (r : Settled) (hr : r ∈ ps)
    (hf : r.fulfilled = false) :
    (promiseAll ps).fulfilled = false ∧ (promiseAll ps).time ≤ r.time := by
  have hmem : r.time ∈ (ps.filter (fun q => !q.fulfilled)).map Settled.time :=
    List.mem_map_of_mem Settled.time (List.mem_filter.mpr ⟨hr, by simp [hf]⟩)
  unfold promiseAll
  cases hts : (ps.filter (fun q => !q.fulfilled)).map Settled.time with
  | nil => rw [hts] at hmem; cases hmem
  | cons t ts =>
    rw [hts] at hmem
    simp only [hts, minTime]
    refine ⟨by simp, ?_⟩
    rcases List.mem_cons.mp hmem with heq | hmem2
    · rw [heq]
      exact foldl_min_le_init ts t
    · exact foldl_min_le_mem ts t r.time hmem2

/-- Claim C8 counterexample: with two eligible files whose parses settle at
times 5 (fulfilled) and 1 (rejected), the scan settles already at time 1 —
before the first file's parse has settled — and it settles rejected: a
single file's parse failure aborts the directory scan, because the
promises are joined with `Promise.all` and not a settle-all combinator. -/
theorem parseDirectory_cex :
    (parseDirectory ["a.adoc", "b.adoc"]
        (fun f => if f = "a.adoc" then ⟨5, true⟩ else ⟨1, false⟩)).2 = ⟨1, false⟩ ∧
    ((fun f : String => if f = "a.adoc" then (⟨5, true⟩ : Settled) else ⟨1, false⟩) "a.adoc").time = 5 := by
  decide

/-- Claim C8 amended: `parseDirectory` launches the callback for exactly
the non-hidden files, all eagerly; when every parse fulfills the scan
fulfills only after the last one has settled, but as soon as any parse
rejects the scan rejects no later than that rejection, without waiting for
the remaining parses. -/
theorem parseDirectory_settlement (files : List String) (outcome : String → Settled) :
    (parseDirectory files outcome).1 =
      files.filter (fun file => !(startsWithL ".".data (nodeBasename file).data)) ∧
    ((∀ r ∈ (parseDirectory files outcome).1.map outcome, r.fulfilled = true) →
      (parseDirectory files outcome).2.fulfilled = true ∧
      ∀ r ∈ (parseDirectory files outcome).1.map outcome,
        r.time ≤ (parseDirectory files outcome).2.time) ∧
    (∀ r ∈ (parseDirectory files outcome).1.map outcome, r.fulfilled = false →
      (parseDirectory files outcome).2.fulfilled = false ∧
      (parseDirectory files outcome).2.time ≤ r.time) := by
  refine ⟨rfl, fun h => ?_, fun r hr hf => ?_⟩
  · exact promiseAll_all_fulfilled _ h
  · exact promiseAll_rejected _ r hr hf

theorem parseDirectory_settlement_witness :
    (∀ r ∈ (parseDirectory ["a.adoc"] (fun _ => ⟨3, true⟩)).1.map (fun _ => (⟨3, true⟩ : Settled)),
        r.fulfilled = true) ∧
    (parseDirectory ["a.adoc"] (fun _ => ⟨3, true⟩)).2.fulfilled = true :=
  ⟨by decide,
   ((parseDirectory_settlement ["a.adoc"] (fun _ => ⟨3, true⟩)).2.1 (by decide)).1⟩

end AsciidocLinks

namespace GraphView

/-- Claim C9: for an identical nonempty snapshot (same id-to-label mapping
and same edge triples) `sameNodes` returns `false` — not `true` — and the
refresh handler invokes `restart`: `sameNodes` compares the stored label
against the `title` property, which snapshot nodes do not carry, so the
no-op detection never fires on nonempty data. -/
theorem sameNodes_title_bug :
    sameNodes [⟨"a", "/x/a.adoc", "A"⟩] [⟨"a", "/x/a.adoc", "A"⟩] = false ∧
    sameEdges [] [] = true ∧
    refreshRestarts [⟨"a", "/x/a.adoc", "A"⟩] [] [⟨"a", "/x/a.adoc", "A"⟩] [] = true := by
  decide

end GraphView
